import Mathlib

/-!
Verification of the HERR routing pass (src/HERR.py) of the Baroque repository.

The Python pass is shallowly embedded: physical and logical qubits are `Nat`,
the coupling map is its edge list (qiskit `CouplingMap.get_edges()` order),
the `networkx` accuracy graph is a weighted edge list over `ℚ`, and the qiskit
`Layout` is the pair of its virtual-to-physical and physical-to-virtual tables.
Python exceptions (TranspilerError, KeyError on map lookups, TypeError from
`len(None)`, CouplingError / networkx NoPath) are modelled with `Except`.
Floating point weights are modelled as exact rationals; the claims under study
are about the algebraic structure of the computations, not rounding.
Iteration over the Python `set` of de-duplicated edges is modelled as
first-occurrence order of the sorted pairs (`List.eraseDups`).
-/

deriving instance DecidableEq for Except

/-- Python exceptions that the HERR code can raise. -/
inductive PyErr where
  | transpilerError : PyErr
  | keyError : PyErr
  | typeError : PyErr
  | couplingError : PyErr
deriving DecidableEq, Repr

/-- Consecutive pairs of a list: `pairsOf [a,b,c] = [(a,b),(b,c)]`.  Mirrors the
Python loops `for i in range(len(path) - 1)` over `path[i], path[i+1]`. -/
def pairsOf : List Nat → List (Nat × Nat)
  | [] => []
  | [_] => []
  | a :: b :: rest => (a, b) :: pairsOf (b :: rest)

/-- Membership of a node in a graph given by an edge list (networkx graphs
built with `add_edges_from` contain exactly the edge endpoints as nodes). -/
def nodeIn (es : List (Nat × Nat)) (u : Nat) : Bool :=
  es.any (fun e => e.1 == u || e.2 == u)

/-- Undirected neighbourhood of `u` in edge-list order. -/
def nbrsIn (es : List (Nat × Nat)) (u : Nat) : List Nat :=
  es.foldr
    (fun e acc =>
      if e.1 = u then e.2 :: acc else if e.2 = u then e.1 :: acc else acc) []

/-- Breadth-first search worker over a queue of reversed paths.  The `visited`
list is extended at enqueue time so every node is enqueued at most once. -/
def bfsGo (es : List (Nat × Nat)) (dst : Nat) :
    Nat → List (List Nat) → List Nat → Option (List Nat)
  | 0, _, _ => none
  | _ + 1, [], _ => none
  | fuel + 1, p :: queue, visited =>
    match p with
    | [] => none
    | u :: _ =>
      if u = dst then some p.reverse
      else
        let fresh := ((nbrsIn es u).filter (fun v => !(visited.contains v))).eraseDups
        bfsGo es dst fuel (queue ++ fresh.map (fun v => v :: p)) (visited ++ fresh)

/-- Shortest path (as a node list, endpoints inclusive) in the undirected graph
given by `es`; ties are broken deterministically by edge-list order, the model
of the deterministic tie-break of `networkx` / qiskit path queries. -/
def bfsPath (es : List (Nat × Nat)) (src dst : Nat) : Option (List Nat) :=
  bfsGo es dst (2 * es.length + 2) [[src]] [src]

/-- Model of `CouplingMap.shortest_undirected_path`; raises when unreachable. -/
def cmShortPath (es : List (Nat × Nat)) (p q : Nat) : Except PyErr (List Nat) :=
  match bfsPath es p q with
  | some path => .ok path
  | none => .error .couplingError

/-- Model of `CouplingMap.distance` (undirected hop count). -/
def cmDistance (es : List (Nat × Nat)) (p q : Nat) : Except PyErr Nat :=
  match bfsPath es p q with
  | some path => .ok (path.length - 1)
  | none => .error .couplingError

/-- Number of physical qubits of the coupling map, `max endpoint + 1`,
matching a qiskit `CouplingMap` built from a coupling list. -/
def cmSize (es : List (Nat × Nat)) : Nat :=
  es.foldr (fun e m => max (max e.1 e.2 + 1) m) 0

/-- Canonical ordering of an edge, the model of `tuple(sorted(edge))`. -/
def sortPair (e : Nat × Nat) : Nat × Nat :=
  if e.1 ≤ e.2 then e else (e.2, e.1)

/-- De-duplicated edge set of `find_better_link` (lines 140-143): each edge is
sorted and the duplicates are removed.  Python iterates the resulting `set` in
its hash-determined order, not in insertion order; the model folds over the
first-occurrence order of the input edge list, so a concrete input is faithful
to the interpreter exactly when its edge list is arranged in CPython's actual
set iteration order for that edge set.  The counterexample device `EX2` below
is arranged that way (the orders for the K3, L3 and L4 devices also coincide
with the real ones). -/
def dedupEdges (es : List (Nat × Nat)) : List (Nat × Nat) :=
  (es.map sortPair).eraseDups

/-- Weight lookup `qubitAccuracy.edges[a, b]["weight"]`; the networkx edge view
is symmetric and a missing edge raises KeyError. -/
def wlookup (ws : List (Nat × Nat × ℚ)) (a b : Nat) : Except PyErr ℚ :=
  match ws.find? (fun t => (t.1 == a && t.2.1 == b) || (t.1 == b && t.2.1 == a)) with
  | some t => .ok t.2.2
  | none => .error .keyError

/-- Model of the membership test `[qubit1, qubit2] in qubitAccuracy.edges()`. -/
def hasWEdge (ws : List (Nat × Nat × ℚ)) (a b : Nat) : Bool :=
  (ws.find? (fun t => (t.1 == a && t.2.1 == b) || (t.1 == b && t.2.1 == a))).isSome

/-- Accumulating product of cubed link weights over a list of link endpoints,
the loop body shared by `calc_shortest_path_accuracy` and `calc_path_accuracy`:
`accuracy = accuracy * linkAccuracy ** 3` per link, with KeyError on a missing
link. -/
def accProd (ws : List (Nat × Nat × ℚ)) : List (Nat × Nat) → ℚ → Except PyErr ℚ
  | [], acc => .ok acc
  | pr :: rest, acc =>
    match wlookup ws pr.1 pr.2 with
    | .error e => .error e
    | .ok w => accProd ws rest (acc * w ^ 3)

/-- Model of `len(...)` on an optional path: Python raises TypeError on
`len(None)`. -/
def plen : Option (List Nat) → Except PyErr Nat
  | none => .error .typeError
  | some l => .ok l.length

/-- The qiskit `Layout`: a bijective table between virtual (logical) qubits and
physical qubits, kept in both directions exactly as qiskit stores the two
dictionaries. -/
structure Layout where
  v2p : List Nat
  p2v : List Nat
deriving DecidableEq, Repr

/-- Lookup `layout[virtualQubit]`, KeyError when absent. -/
def Layout.v2pGet (l : Layout) (v : Nat) : Except PyErr Nat :=
  match l.v2p.get? v with
  | some p => .ok p
  | none => .error .keyError

/-- Lookup `layout[physicalQubit]`, KeyError when absent. -/
def Layout.p2vGet (l : Layout) (p : Nat) : Except PyErr Nat :=
  match l.p2v.get? p with
  | some v => .ok v
  | none => .error .keyError

/-- The qiskit `Layout.swap(physA, physB)`: exchange the logical owners of the
two physical slots, updating both direction tables. -/
def Layout.swap (l : Layout) (a b : Nat) : Except PyErr Layout :=
  match l.p2vGet a with
  | .error e => .error e
  | .ok va =>
    match l.p2vGet b with
    | .error e => .error e
    | .ok vb => .ok ⟨(l.v2p.set va b).set vb a, (l.p2v.set a vb).set b va⟩

/-- Model of `Layout.generate_trivial_layout(canonical_register)`: virtual
qubit `i` sits on physical qubit `i`. -/
def Layout.trivial (n : Nat) : Layout :=
  ⟨List.range n, List.range n⟩

/-- Well-formedness of a layout over `n` qubits, the executable form of the
bijection invariant: every physical slot has an owner below `n` and mapping the
owner back gives the slot. -/
def Layout.wfb (n : Nat) (l : Layout) : Bool :=
  l.v2p.length == n && l.p2v.length == n &&
  (List.range n).all fun p =>
    match l.p2v.get? p with
    | some v => decide (v < n) && (l.v2p.get? v == some p)
    | none => false

/-- A gate operation: its name and its qubit arguments.  In the input DAG the
arguments are logical-qubit indices; in the routed output they are physical
qubits.  Inserted swaps carry the qiskit gate name. -/
structure GateOp where
  name : String
  qargs : List Nat
deriving DecidableEq, Repr

/-- A DAG circuit is modelled by its canonical register size and the sequence
of its serial layers (`dag.serial_layers()` yields one operation per layer, in
program order). -/
structure DAGCircuit where
  nq : Nat
  ops : List GateOp
deriving DecidableEq, Repr

/-- The HERR transpiler pass object, mirroring `HERR.__init__`: the coupling
map (by its edge list), the accuracy graph (weighted edge list), the optional
initial layout and the search depth. -/
structure HERR where
  couplingMap : List (Nat × Nat)
  qubitAccuracy : List (Nat × Nat × ℚ)
  initial_layout : Option (List Nat)
  searchDepth : Nat
deriving DecidableEq

/-- Replace the stored initial layout of a pass object. -/
def setInitialLayout (h : HERR) (il : Option (List Nat)) : HERR :=
  ⟨h.couplingMap, h.qubitAccuracy, il, h.searchDepth⟩

/-- Model of `HERR.find_path_excluding` (lines 168-189): shortest path from
`src` to `dst` on the coupling subgraph with every edge touching `exQ` removed;
`None` when `src = dst`, when either endpoint leaves the subgraph or when they
are disconnected (the bare `except` clause). -/
def HERR.find_path_excluding (h : HERR) (src dst exQ : Nat) : Option (List Nat) :=
  if src = dst then none
  else
    let subEdges := h.couplingMap.filter (fun e => e.1 != exQ && e.2 != exQ)
    if nodeIn subEdges src && nodeIn subEdges dst then bfsPath subEdges src dst
    else none

/-- Model of `HERR.find_shortest_path` (lines 191-246), translated clause by
clause: the four candidate paths are computed under the source-distinct guards,
then the comparison block chooses the assignment.  The dead first comparison
(lines 216-221, overwritten by the following two) is kept only through its
`len(...)` evaluations, which can raise TypeError on a `None` path; the second
and third comparison short-circuit exactly as the Python `and` does. -/
def HERR.find_shortest_path (h : HERR) (s d : Nat × Nat) :
    Except PyErr (Option (List Nat) × Option (List Nat)) :=
  let q0p0 := if d.1 ≠ s.2 then h.find_path_excluding s.1 d.1 s.2 else none
  let q0p1 := if d.2 ≠ s.2 then h.find_path_excluding s.1 d.2 s.2 else none
  let q1p0 := if d.1 ≠ s.1 then h.find_path_excluding s.2 d.1 s.1 else none
  let q1p1 := if d.2 ≠ s.1 then h.find_path_excluding s.2 d.2 s.1 else none
  if s.1 ≠ d.1 ∧ s.1 ≠ d.2 ∧ s.2 ≠ d.1 ∧ s.2 ≠ d.2 then
    match plen q0p0 with
    | .error e => .error e
    | .ok l00 =>
      match plen q1p0 with
      | .error e => .error e
      | .ok l10 =>
        match plen q0p1 with
        | .error e => .error e
        | .ok l01 =>
          match plen q1p1 with
          | .error e => .error e
          | .ok l11 =>
            let qp0 := if l01 < l00 ∧ l01 < l11 then q0p1 else q0p0
            let qp1 := if l11 < l10 ∧ l11 < l01 then q1p1 else q1p0
            .ok (qp0, qp1)
  else if s.1 ≠ d.1 ∧ s.1 ≠ d.2 then
    .ok ((if s.2 ≠ d.1 then q0p1 else q0p0), none)
  else if s.2 ≠ d.1 ∧ s.2 ≠ d.2 then
    .ok (none, (if s.1 ≠ d.1 then q1p0 else q1p1))
  else
    .ok (none, none)

/-- Model of `HERR.calc_shortest_path_accuracy` (lines 248-258): the loop runs
over `range(len(path) - 2)` and therefore multiplies the cubed weight of every
consecutive link of the shortest path except the final one. -/
def HERR.calc_shortest_path_accuracy (h : HERR) (q1 q2 : Nat) : Except PyErr ℚ :=
  match cmShortPath h.couplingMap q1 q2 with
  | .error e => .error e
  | .ok path => accProd h.qubitAccuracy ((pairsOf path).dropLast) 1

/-- Accuracy of one assignment leg of `calc_path_accuracy`: a missing path
contributes the multiplicative identity, a present path the product of its
cubed link weights over all consecutive pairs. -/
def pathLegAcc (ws : List (Nat × Nat × ℚ)) : Option (List Nat) → Except PyErr ℚ
  | none => .ok 1
  | some p => accProd ws (pairsOf p) 1

/-- Model of `HERR.calc_path_accuracy` (lines 260-286).  The `current_layout`
argument is accepted and unused, exactly as in the source.  Note the guard:
only when BOTH legs are `None` does the function return 0. -/
def HERR.calc_path_accuracy (h : HERR) (s d : Nat × Nat) (lay : Layout) :
    Except PyErr ℚ :=
  match h.find_shortest_path s d with
  | .error e => .error e
  | .ok qp =>
    if qp.1 = none ∧ qp.2 = none then .ok 0
    else
      match pathLegAcc h.qubitAccuracy qp.1 with
      | .error e => .error e
      | .ok a0 =>
        match pathLegAcc h.qubitAccuracy qp.2 with
        | .error e => .error e
        | .ok a1 =>
          match wlookup h.qubitAccuracy d.1 d.2 with
          | .error e => .error e
          | .ok w => .ok (w * a0 * a1)

/-- Candidate loop of `find_better_link` (lines 151-163): the state is
`(bestEdge, bestEdgeAccuracy, foundBetterEdge)`.  Note that the accuracy of a
candidate is computed against the CURRENT best edge `st.1`, not against the
original pair, because the source passes the mutated `bestEdge`. -/
def fblLoop (h : HERR) (q1 q2 : Nat) (lay : Layout) (depth : Nat) :
    List (Nat × Nat) → ((Nat × Nat) × ℚ × Bool) →
    Except PyErr ((Nat × Nat) × ℚ × Bool)
  | [], st => .ok st
  | e :: rest, st =>
    match cmDistance h.couplingMap q1 e.1 with
    | .error er => .error er
    | .ok d1 =>
      if d1 ≤ depth then
        match cmDistance h.couplingMap q1 e.2 with
        | .error er => .error er
        | .ok d2 =>
          if d2 ≤ depth then
            match cmDistance h.couplingMap q2 e.1 with
            | .error er => .error er
            | .ok d3 =>
              if d3 ≤ depth then
                match cmDistance h.couplingMap q2 e.2 with
                | .error er => .error er
                | .ok d4 =>
                  if d4 ≤ depth then
                    match h.calc_path_accuracy st.1 e lay with
                    | .error er => .error er
                    | .ok acc =>
                      if st.2.1 < acc then
                        fblLoop h q1 q2 lay depth rest (e, acc, true)
                      else fblLoop h q1 q2 lay depth rest st
                  else fblLoop h q1 q2 lay depth rest st
              else fblLoop h q1 q2 lay depth rest st
          else fblLoop h q1 q2 lay depth rest st
      else fblLoop h q1 q2 lay depth rest st

/-- Model of `HERR.find_better_link` (lines 126-166). -/
def HERR.find_better_link (h : HERR) (qubit1 qubit2 : Nat) (lay : Layout)
    (depth : Nat) : Except PyErr (Option (Nat × Nat)) :=
  let uniqueEdges := dedupEdges h.couplingMap
  let base :=
    if hasWEdge h.qubitAccuracy qubit1 qubit2 then
      wlookup h.qubitAccuracy qubit1 qubit2
    else h.calc_shortest_path_accuracy qubit1 qubit2
  match base with
  | .error e => .error e
  | .ok bestAcc =>
    match fblLoop h qubit1 qubit2 lay depth uniqueEdges
        ((qubit1, qubit2), bestAcc, false) with
    | .error e => .error e
    | .ok st => .ok (if st.2.2 then some st.1 else none)

/-- Physical endpoints of one emitted swap (run lines 76-85): the wire pair is
first translated to virtual qubits through the CURRENT layout and the swap
layer is then composed back through `reorder_bits` of the same layout, so the
two translations cancel on a well-formed layout. -/
def emitPair (lay : Layout) (w1 w2 : Nat) : Except PyErr (Nat × Nat) :=
  match lay.p2vGet w1 with
  | .error e => .error e
  | .ok v1 =>
    match lay.p2vGet w2 with
    | .error e => .error e
    | .ok v2 =>
      match lay.v2pGet v1 with
      | .error e => .error e
      | .ok p1 =>
        match lay.v2pGet v2 with
        | .error e => .error e
        | .ok p2 => .ok (p1, p2)

/-- The swap instruction inserted by the router for one wire pair. -/
def mkSwapOp (pr : Nat × Nat) : GateOp :=
  ⟨"swap", [pr.1, pr.2]⟩

/-- Emission of the whole swap layer (run lines 70-85): every swap of both
chains is addressed through the SAME pre-chain layout. -/
def emitSwaps (lay : Layout) : List (Nat × Nat) → Except PyErr (List GateOp)
  | [] => .ok []
  | pr :: rest =>
    match emitPair lay pr.1 pr.2 with
    | .error e => .error e
    | .ok q =>
      match emitSwaps lay rest with
      | .error e => .error e
      | .ok ops => .ok (⟨"swap", [q.1, q.2]⟩ :: ops)

/-- Layout update loop of run (lines 88-91 and 118-119): the swaps are applied
to the layout one after the other, in emission order. -/
def applySwaps (lay : Layout) : List (Nat × Nat) → Except PyErr Layout
  | [] => .ok lay
  | pr :: rest =>
    match lay.swap pr.1 pr.2 with
    | .error e => .error e
    | .ok l1 => applySwaps l1 rest

/-- Wire pairs of the two assignment chains of the better-edge branch (run
lines 70-81): all consecutive pairs of each non-`None` path, chain 0 first. -/
def chainPairs (sp : Option (List Nat) × Option (List Nat)) : List (Nat × Nat) :=
  (match sp.1 with | some p => pairsOf p | none => []) ++
  (match sp.2 with | some p => pairsOf p | none => [])

/-- Translation of a gate argument list through the current layout, the model
of composing a layer with `order = current_layout.reorder_bits(...)`. -/
def mapQargs (lay : Layout) : List Nat → Except PyErr (List Nat)
  | [] => .ok []
  | q :: rest =>
    match lay.v2pGet q with
    | .error e => .error e
    | .ok p =>
      match mapQargs lay rest with
      | .error e => .error e
      | .ok ps => .ok (p :: ps)

/-- Processing of one serial layer of `HERR.run` (lines 57-122).  A layer whose
operation has exactly two qubit arguments goes through the routing decision;
every other layer is re-emitted through the current layout unchanged. -/
def HERR.stepOp (h : HERR) (lay : Layout) (g : GateOp) :
    Except PyErr (Layout × List GateOp) :=
  match g.qargs with
  | [a, b] =>
    match lay.v2pGet a with
    | .error e => .error e
    | .ok p0 =>
      match lay.v2pGet b with
      | .error e => .error e
      | .ok p1 =>
        match h.find_better_link p0 p1 lay h.searchDepth with
        | .error e => .error e
        | .ok (some e) =>
          match h.find_shortest_path (p0, p1) (e.1, e.2) with
          | .error er => .error er
          | .ok sp =>
            match emitSwaps lay (chainPairs sp) with
            | .error er => .error er
            | .ok sw =>
              match applySwaps lay (chainPairs sp) with
              | .error er => .error er
              | .ok lay1 =>
                match mapQargs lay1 g.qargs with
                | .error er => .error er
                | .ok gq => .ok (lay1, sw ++ [⟨g.name, gq⟩])
        | .ok none =>
          match cmDistance h.couplingMap p0 p1 with
          | .error er => .error er
          | .ok dist =>
            if dist ≠ 1 then
              match cmShortPath h.couplingMap p0 p1 with
              | .error er => .error er
              | .ok path =>
                match emitSwaps lay ((pairsOf path).dropLast) with
                | .error er => .error er
                | .ok sw =>
                  match applySwaps lay ((pairsOf path).dropLast) with
                  | .error er => .error er
                  | .ok lay1 =>
                    match mapQargs lay1 g.qargs with
                    | .error er => .error er
                    | .ok gq => .ok (lay1, sw ++ [⟨g.name, gq⟩])
            else
              match mapQargs lay g.qargs with
              | .error er => .error er
              | .ok gq => .ok (lay, [⟨g.name, gq⟩])
  | _ =>
    match mapQargs lay g.qargs with
    | .error er => .error er
    | .ok gq => .ok (lay, [⟨g.name, gq⟩])

/-- Folding `stepOp` over the serial layers, concatenating the emitted
operations in program order. -/
def HERR.runOps (h : HERR) : Layout → List GateOp →
    Except PyErr (Layout × List GateOp)
  | lay, [] => .ok (lay, [])
  | lay, g :: rest =>
    match h.stepOp lay g with
    | .error e => .error e
    | .ok (lay1, out1) =>
      match h.runOps lay1 rest with
      | .error e => .error e
      | .ok (lay2, out2) => .ok (lay2, out1 ++ out2)

/-- Model of `HERR.run` (lines 37-124): reject a program with more qubits than
the device, start from the trivial layout (the stored `initial_layout` is not
consulted anywhere in the source), and process the serial layers in order. -/
def HERR.run (h : HERR) (dag : DAGCircuit) : Except PyErr DAGCircuit :=
  if dag.nq > cmSize h.couplingMap then .error .transpilerError
  else
    match h.runOps (Layout.trivial dag.nq) dag.ops with
    | .error e => .error e
    | .ok res => .ok ⟨dag.nq, res.2⟩

/-- Read of `dag.qubits` and the register copy loop: a pure read returning the
input object unchanged together with the value read. -/
def DAGCircuit.qubitsRead (d : DAGCircuit) : DAGCircuit × Nat :=
  (d, d.nq)

/-- Read of `dag.serial_layers()`: builds fresh layer objects and leaves the
input DAG unchanged. -/
def DAGCircuit.serialLayersRead (d : DAGCircuit) : DAGCircuit × List GateOp :=
  (d, d.ops)

/-- State-threaded variant of `run` for the frame claim: the input DAG is
threaded through every method call the source performs on it (all reads:
`qregs`, `qubits`, `serial_layers`), while all writes (`add_qreg`,
`apply_operation_back`, `compose`) target the freshly created output DAG.  The
result carries the input object after routing next to the routed output. -/
def HERR.runMut (h : HERR) (dag : DAGCircuit) :
    Except PyErr (DAGCircuit × DAGCircuit) :=
  let r1 := dag.qubitsRead
  if r1.2 > cmSize h.couplingMap then .error .transpilerError
  else
    let r2 := r1.1.serialLayersRead
    match h.runOps (Layout.trivial r1.2) r2.2 with
    | .error e => .error e
    | .ok res => .ok (r2.1, ⟨r1.2, res.2⟩)

/-- Five-qubit device used to exercise the better-link branch of the router
in the C7 and C10 witnesses: links 0-1, 1-2, 3-4, 0-4, 2-4, with a very noisy
0-1 link; under the model's fold order the candidate loop accepts (3,4) for a
gate on (0,1), giving non-empty assignment chains for both sources. -/
def EX1 : HERR :=
  ⟨[(0, 1), (1, 2), (3, 4), (0, 4), (2, 4)],
   [(0, 1, 1 / 100), (1, 2, 99 / 100), (3, 4, 99 / 100), (0, 4, 99 / 100),
    (2, 4, 99 / 100)], none, 3⟩

/-- One CX on logical qubits 0 and 1 over a five-qubit register. -/
def dagEX1 : DAGCircuit := ⟨5, [⟨"cx", [0, 1]⟩]⟩

/-- Complete three-qubit device with a very noisy 0-1 link and accurate other
links. -/
def K3 : HERR :=
  ⟨[(0, 1), (0, 2), (1, 2)],
   [(0, 1, 1 / 100), (0, 2, 99 / 100), (1, 2, 99 / 100)], none, 2⟩

/-- One CX on logical qubits 0 and 1 over a three-qubit register. -/
def dagK3 : DAGCircuit := ⟨3, [⟨"cx", [0, 1]⟩]⟩

/-- Four-qubit path device 0-1-2-3. -/
def L4 : HERR :=
  ⟨[(0, 1), (1, 2), (2, 3)],
   [(0, 1, 1 / 2), (1, 2, 1 / 3), (2, 3, 9 / 10)], none, 2⟩

/-- Three-qubit path device 0-1-2 carrying a non-identity stored initial
layout (logical 0 on physical 0, logical 1 on physical 2, logical 2 on
physical 1). -/
def L3 : HERR :=
  ⟨[(0, 1), (1, 2)], [(0, 1, 1 / 2), (1, 2, 1 / 3)], some [0, 2, 1], 2⟩

/-- One CX on logical qubits 0 and 1 over a three-qubit register. -/
def dagL3 : DAGCircuit := ⟨3, [⟨"cx", [0, 1]⟩]⟩

/-- Link test on the coupling map (either orientation of the edge list). -/
def isLink (es : List (Nat × Nat)) (a b : Nat) : Bool :=
  es.any (fun e => (e.1 == a && e.2 == b) || (e.1 == b && e.2 == a))

/-- The weights of a list of links, each looked up in the accuracy graph. -/
def wlistOf (ws : List (Nat × Nat × ℚ)) : List (Nat × Nat) → Except PyErr (List ℚ)
  | [] => .ok []
  | pr :: rest =>
    match wlookup ws pr.1 pr.2 with
    | .error e => .error e
    | .ok w =>
      match wlistOf ws rest with
      | .error e => .error e
      | .ok qs => .ok (w :: qs)

/-- Modelled from the spec for claim C3: the shortest-path accuracy as the
claim words it, the product of `weight(link)^3` over EVERY consecutive link of
the shortest path (the source loop stops one link earlier). -/
def specShortestPathAccuracy (h : HERR) (q1 q2 : Nat) : Except PyErr ℚ :=
  match cmShortPath h.couplingMap q1 q2 with
  | .error e => .error e
  | .ok path => accProd h.qubitAccuracy (pairsOf path) 1

/-- Modelled from the spec for claim C7: append one SwapInstruction per
consecutive wire pair, applying each swap to the Layout immediately, so that
every later swap of the chain runs against the already-updated Layout. -/
def specEmitChains (lay : Layout) :
    List (Nat × Nat) → Except PyErr (List GateOp × Layout)
  | [] => .ok ([], lay)
  | pr :: rest =>
    match lay.swap pr.1 pr.2 with
    | .error e => .error e
    | .ok lay1 =>
      match specEmitChains lay1 rest with
      | .error e => .error e
      | .ok res => .ok (mkSwapOp pr :: res.1, res.2)

/-- Propositional form of the layout bijection invariant over `n` qubits. -/
def Layout.wfP (n : Nat) (l : Layout) : Prop :=
  l.v2p.length = n ∧ l.p2v.length = n ∧
  ∀ p, p < n → ∃ v, v < n ∧ l.p2v.get? p = some v ∧ l.v2p.get? v = some p

/-- The layouts that can arise during a routing run: the trivial layout it
starts from, and anything obtained from a reachable layout by one successful
`Layout.swap` — the only operation through which `run` ever mutates the
layout (lines 51, 91 and 119 of the source). -/
inductive LayoutReach : Nat → Layout → Prop where
  | start (n : Nat) : LayoutReach n (Layout.trivial n)
  | step {n : Nat} {l l1 : Layout} {a b : Nat} :
      LayoutReach n l → l.swap a b = .ok l1 → LayoutReach n l1

theorem lget_set_self {α : Type} (l : List α) (i : Nat) (a : α) (h : i < l.length) :
    (l.set i a).get? i = some a := by
  induction l generalizing i with
  | nil => simp at h
  | cons x xs ih =>
    cases i with
    | zero => rfl
    | succ j => exact ih j (Nat.lt_of_succ_lt_succ (by simpa using h))

theorem lget_set_other {α : Type} (l : List α) {i j : Nat} {a : α} (h : i ≠ j) :
    (l.set i a).get? j = l.get? j := by
  induction l generalizing i j with
  | nil => simp
  | cons x xs ih =>
    cases i with
    | zero =>
      cases j with
      | zero => exact absurd rfl h
      | succ k => rfl
    | succ i2 =>
      cases j with
      | zero => rfl
      | succ k => exact ih (fun hh => h (by rw [hh]))

theorem lget_some_lt {α : Type} {l : List α} {i : Nat} {a : α}
    (h : l.get? i = some a) : i < l.length := by
  induction l generalizing i with
  | nil => cases h
  | cons x xs ih =>
    cases i with
    | zero => simp
    | succ j => exact Nat.succ_lt_succ (ih h)

theorem lget_lt_some {α : Type} {l : List α} {i : Nat} (h : i < l.length) :
    ∃ a, l.get? i = some a := by
  induction l generalizing i with
  | nil => simp at h
  | cons x xs ih =>
    cases i with
    | zero => exact ⟨x, rfl⟩
    | succ j => exact ih (Nat.lt_of_succ_lt_succ (by simpa using h))

theorem Layout.wfb_iff {n : Nat} {l : Layout} : l.wfb n = true ↔ l.wfP n := by
  constructor
  · intro h
    simp only [Layout.wfb, Bool.and_eq_true, List.all_eq_true, beq_iff_eq] at h
    obtain ⟨⟨h1, h2⟩, h3⟩ := h
    refine ⟨h1, h2, fun p hp => ?_⟩
    have hm := h3 p (List.mem_range.mpr hp)
    cases hg : l.p2v.get? p with
    | none => rw [hg] at hm; simp at hm
    | some v =>
      rw [hg] at hm
      simp only [Bool.and_eq_true, decide_eq_true_eq, beq_iff_eq] at hm
      exact ⟨v, hm.1, rfl, hm.2⟩
  · intro h
    obtain ⟨h1, h2, h3⟩ := h
    simp only [Layout.wfb, Bool.and_eq_true, List.all_eq_true, beq_iff_eq]
    refine ⟨⟨h1, h2⟩, fun p hp => ?_⟩
    obtain ⟨v, hv, hg, hb⟩ := h3 p (List.mem_range.mp hp)
    rw [hg]
    show (decide (v < n) && (l.v2p.get? v == some p)) = true
    rw [hb]
    simp [hv]

theorem Layout.trivial_wfP (n : Nat) : (Layout.trivial n).wfP n := by
  refine ⟨List.length_range n, List.length_range n, fun p hp => ?_⟩
  exact ⟨p, hp, List.get?_range hp, List.get?_range hp⟩

theorem Layout.swap_ok_elim {l l1 : Layout} {a b : Nat} (h : l.swap a b = .ok l1) :
    ∃ va vb, l.p2v.get? a = some va ∧ l.p2v.get? b = some vb ∧
      l1 = ⟨(l.v2p.set va b).set vb a, (l.p2v.set a vb).set b va⟩ := by
  unfold Layout.swap Layout.p2vGet at h
  cases hga : l.p2v.get? a with
  | none => rw [hga] at h; simp at h
  | some va =>
    rw [hga] at h
    cases hgb : l.p2v.get? b with
    | none => rw [hgb] at h; simp at h
    | some vb =>
      rw [hgb] at h
      simp only [Except.ok.injEq] at h
      exact ⟨va, vb, rfl, rfl, h.symm⟩

theorem Layout.swap_isOk {n : Nat} {l : Layout} {a b : Nat}
    (hw : l.wfP n) (ha : a < n) (hb : b < n) : ∃ l1, l.swap a b = .ok l1 := by
  obtain ⟨h1, h2, hB⟩ := hw
  obtain ⟨va, _, hga, _⟩ := hB a ha
  obtain ⟨vb, _, hgb, _⟩ := hB b hb
  refine ⟨⟨(l.v2p.set va b).set vb a, (l.p2v.set a vb).set b va⟩, ?_⟩
  unfold Layout.swap Layout.p2vGet
  rw [hga, hgb]

theorem Layout.swap_wfP {n : Nat} {l l1 : Layout} {a b : Nat}
    (hw : l.wfP n) (h : l.swap a b = .ok l1) : l1.wfP n := by
  obtain ⟨hL1, hL2, hB⟩ := hw
  obtain ⟨va, vb, hga, hgb, rfl⟩ := Layout.swap_ok_elim h
  have ha : a < n := hL2 ▸ lget_some_lt hga
  have hb : b < n := hL2 ▸ lget_some_lt hgb
  obtain ⟨va2, hvalt, hga2, hba⟩ := hB a ha
  obtain ⟨vb2, hvblt, hgb2, hbb⟩ := hB b hb
  rw [hga] at hga2
  injection hga2 with hva2
  subst hva2
  rw [hgb] at hgb2
  injection hgb2 with hvb2
  subst hvb2
  refine ⟨by simp [List.length_set, hL1], by simp [List.length_set, hL2],
    fun p hp => ?_⟩
  by_cases hpb : p = b
  · refine ⟨va, hvalt, ?_, ?_⟩
    · rw [hpb]
      exact lget_set_self _ b va (by simp [List.length_set, hL2, hb])
    · rw [hpb]
      by_cases hvv : va = vb
      · have hab : a = b := by
          rw [hvv, hbb] at hba
          injection hba with hh
          exact hh.symm
        rw [← hvv]
        have hsel := lget_set_self (l.v2p.set va b) va a
          (by simp [List.length_set, hL1, hvalt])
        rw [hsel, hab]
      · rw [lget_set_other _ (fun hh => hvv hh.symm)]
        exact lget_set_self l.v2p va b (by simp [hL1, hvalt])
  · by_cases hpa : p = a
    · have hab : a ≠ b := fun hh => hpb (hpa.trans hh)
      refine ⟨vb, hvblt, ?_, ?_⟩
      · rw [hpa, lget_set_other _ (Ne.symm hab)]
        exact lget_set_self _ a vb (by simp [hL2, ha])
      · rw [hpa]
        exact lget_set_self _ vb a (by simp [List.length_set, hL1, hvblt])
    · obtain ⟨vp, hvplt, hgp, hbp⟩ := hB p hp
      have hva : vp ≠ va := by
        intro hh
        rw [hh, hba] at hbp
        injection hbp with hh2
        exact hpa hh2.symm
      have hvb : vp ≠ vb := by
        intro hh
        rw [hh, hbb] at hbp
        injection hbp with hh2
        exact hpb hh2.symm
      refine ⟨vp, hvplt, ?_, ?_⟩
      · rw [lget_set_other _ (fun hh => hpb hh.symm),
          lget_set_other _ (fun hh => hpa hh.symm)]
        exact hgp
      · rw [lget_set_other _ (Ne.symm hvb), lget_set_other _ (Ne.symm hva)]
        exact hbp

theorem emitPair_eq {n : Nat} {lay : Layout} (hw : lay.wfP n) {w1 w2 : Nat}
    (h1 : w1 < n) (h2 : w2 < n) : emitPair lay w1 w2 = .ok (w1, w2) := by
  obtain ⟨hL1, hL2, hB⟩ := hw
  obtain ⟨v1, _, hg1, hb1⟩ := hB w1 h1
  obtain ⟨v2, _, hg2, hb2⟩ := hB w2 h2
  unfold emitPair Layout.p2vGet Layout.v2pGet
  simp only [hg1, hg2, hb1, hb2]

theorem emitSwaps_eq {n : Nat} {lay : Layout} (hw : lay.wfP n) :
    ∀ ps : List (Nat × Nat), (∀ pr ∈ ps, pr.1 < n ∧ pr.2 < n) →
      emitSwaps lay ps = .ok (ps.map mkSwapOp) := by
  intro ps
  induction ps with
  | nil => intro _; rfl
  | cons pr rest ih =>
    intro hb
    have hpr := hb pr (List.mem_cons_self pr rest)
    have hrest := ih (fun q hq => hb q (List.mem_cons_of_mem pr hq))
    unfold emitSwaps
    rw [emitPair_eq hw hpr.1 hpr.2, hrest]
    rfl

theorem applySwaps_spec {n : Nat} :
    ∀ (ps : List (Nat × Nat)) (lay : Layout), lay.wfP n →
      (∀ pr ∈ ps, pr.1 < n ∧ pr.2 < n) →
      ∃ lay1, applySwaps lay ps = .ok lay1 ∧ lay1.wfP n ∧
        specEmitChains lay ps = .ok (ps.map mkSwapOp, lay1) := by
  intro ps
  induction ps with
  | nil => intro lay hw _; exact ⟨lay, rfl, hw, rfl⟩
  | cons pr rest ih =>
    intro lay hw hb
    have hpr := hb pr (List.mem_cons_self pr rest)
    obtain ⟨l1, hs⟩ := Layout.swap_isOk hw hpr.1 hpr.2
    have hw1 := Layout.swap_wfP hw hs
    obtain ⟨lay1, h1, h2, h3⟩ := ih l1 hw1 (fun q hq => hb q (List.mem_cons_of_mem pr hq))
    refine ⟨lay1, ?_, h2, ?_⟩
    · unfold applySwaps
      simp only [hs]
      exact h1
    · unfold specEmitChains
      simp only [hs, h3, List.map_cons]

theorem layoutReach_wfP {n : Nat} {l : Layout} (h : LayoutReach n l) : l.wfP n := by
  induction h with
  | start => exact Layout.trivial_wfP _
  | step _ hs ih => exact Layout.swap_wfP ih hs

theorem emitSwaps_names {lay : Layout} :
    ∀ (ps : List (Nat × Nat)) {sw : List GateOp}, emitSwaps lay ps = .ok sw →
      ∀ o ∈ sw, o.name = "swap" := by
  intro ps
  induction ps with
  | nil =>
    intro sw hs o ho
    unfold emitSwaps at hs
    injection hs with hs
    subst hs
    simp at ho
  | cons pr rest ih =>
    intro sw hs o ho
    unfold emitSwaps at hs
    cases hq : emitPair lay pr.1 pr.2 with
    | error e => rw [hq] at hs; simp at hs
    | ok q =>
      rw [hq] at hs
      cases hr : emitSwaps lay rest with
      | error e => rw [hr] at hs; simp at hs
      | ok ops =>
        rw [hr] at hs
        injection hs with hs
        subst hs
        rcases List.mem_cons.mp ho with h1 | h2
        · rw [h1]
        · exact ih hr o h2

theorem accProd_eq {ws : List (Nat × Nat × ℚ)} :
    ∀ (ps : List (Nat × Nat)) (a : ℚ) (qs : List ℚ),
      wlistOf ws ps = .ok qs →
      accProd ws ps a = .ok (a * (qs.map (fun w => w ^ 3)).prod) := by
  intro ps
  induction ps with
  | nil =>
    intro a qs hw
    unfold wlistOf at hw
    injection hw with hw
    subst hw
    simp [accProd]
  | cons pr rest ih =>
    intro a qs hw
    unfold wlistOf at hw
    cases h1 : wlookup ws pr.1 pr.2 with
    | error e => rw [h1] at hw; simp at hw
    | ok w =>
      rw [h1] at hw
      cases h2 : wlistOf ws rest with
      | error e => rw [h2] at hw; simp at hw
      | ok qs2 =>
        rw [h2] at hw
        injection hw with hw
        subst hw
        unfold accProd
        simp only [h1, ih (a * w ^ 3) qs2 h2, Except.ok.injEq, List.map_cons,
          List.prod_cons]
        ring

theorem stepOp_shape {h : HERR} {lay lay1 : Layout} {g : GateOp} {out : List GateOp}
    (hs : h.stepOp lay g = .ok (lay1, out)) :
    ∃ sw gq, out = sw ++ [⟨g.name, gq⟩] ∧ ∀ o ∈ sw, o.name = "swap" := by
  obtain ⟨gname, qargs⟩ := g
  rcases qargs with _ | ⟨a, _ | ⟨b, _ | ⟨c, t⟩⟩⟩
  · unfold HERR.stepOp at hs
    cases hmq : mapQargs lay ([] : List Nat) with
    | error e => simp only [hmq] at hs; exact Except.noConfusion hs
    | ok gq =>
      simp only [hmq, Except.ok.injEq, Prod.mk.injEq] at hs
      exact ⟨[], gq, hs.2.symm, by simp⟩
  · unfold HERR.stepOp at hs
    cases hmq : mapQargs lay [a] with
    | error e => simp only [hmq] at hs; exact Except.noConfusion hs
    | ok gq =>
      simp only [hmq, Except.ok.injEq, Prod.mk.injEq] at hs
      exact ⟨[], gq, hs.2.symm, by simp⟩
  · unfold HERR.stepOp at hs
    cases hp0 : lay.v2pGet a with
    | error e => simp only [hp0] at hs; exact Except.noConfusion hs
    | ok p0 =>
      simp only [hp0] at hs
      cases hp1 : lay.v2pGet b with
      | error e => simp only [hp1] at hs; exact Except.noConfusion hs
      | ok p1 =>
        simp only [hp1] at hs
        cases hfb : h.find_better_link p0 p1 lay h.searchDepth with
        | error e => simp only [hfb] at hs; exact Except.noConfusion hs
        | ok better =>
          simp only [hfb] at hs
          cases better with
          | some e =>
            cases hsp : h.find_shortest_path (p0, p1) (e.1, e.2) with
            | error er => simp only [hsp] at hs; exact Except.noConfusion hs
            | ok sp =>
              simp only [hsp] at hs
              cases hes : emitSwaps lay (chainPairs sp) with
              | error er => simp only [hes] at hs; exact Except.noConfusion hs
              | ok sw =>
                simp only [hes] at hs
                cases has : applySwaps lay (chainPairs sp) with
                | error er => simp only [has] at hs; exact Except.noConfusion hs
                | ok lay2 =>
                  simp only [has] at hs
                  cases hmq : mapQargs lay2 [a, b] with
                  | error er => simp only [hmq] at hs; exact Except.noConfusion hs
                  | ok gq =>
                    simp only [hmq, Except.ok.injEq, Prod.mk.injEq] at hs
                    exact ⟨sw, gq, hs.2.symm, emitSwaps_names _ hes⟩
          | none =>
            cases hd : cmDistance h.couplingMap p0 p1 with
            | error er => simp only [hd] at hs; exact Except.noConfusion hs
            | ok dist =>
              simp only [hd] at hs
              by_cases hone : dist ≠ 1
              · rw [if_pos hone] at hs
                cases hpath : cmShortPath h.couplingMap p0 p1 with
                | error er => simp only [hpath] at hs; exact Except.noConfusion hs
                | ok path =>
                  simp only [hpath] at hs
                  cases hes : emitSwaps lay ((pairsOf path).dropLast) with
                  | error er => simp only [hes] at hs; exact Except.noConfusion hs
                  | ok sw =>
                    simp only [hes] at hs
                    cases has : applySwaps lay ((pairsOf path).dropLast) with
                    | error er => simp only [has] at hs; exact Except.noConfusion hs
                    | ok lay2 =>
                      simp only [has] at hs
                      cases hmq : mapQargs lay2 [a, b] with
                      | error er => simp only [hmq] at hs; exact Except.noConfusion hs
                      | ok gq =>
                        simp only [hmq, Except.ok.injEq, Prod.mk.injEq] at hs
                        exact ⟨sw, gq, hs.2.symm, emitSwaps_names _ hes⟩
              · rw [if_neg hone] at hs
                cases hmq : mapQargs lay [a, b] with
                | error er => simp only [hmq] at hs; exact Except.noConfusion hs
                | ok gq =>
                  simp only [hmq, Except.ok.injEq, Prod.mk.injEq] at hs
                  exact ⟨[], gq, hs.2.symm, by simp⟩
  · unfold HERR.stepOp at hs
    cases hmq : mapQargs lay (a :: b :: c :: t) with
    | error e => simp only [hmq] at hs; exact Except.noConfusion hs
    | ok gq =>
      simp only [hmq, Except.ok.injEq, Prod.mk.injEq] at hs
      exact ⟨[], gq, hs.2.symm, by simp⟩

theorem runOps_names {h : HERR} :
    ∀ (gs : List GateOp) (lay lay2 : Layout) (out : List GateOp),
      h.runOps lay gs = .ok (lay2, out) → (∀ g ∈ gs, g.name ≠ "swap") →
      (out.filter (fun o => o.name != "swap")).map GateOp.name =
        gs.map GateOp.name := by
  intro gs
  induction gs with
  | nil =>
    intro lay lay2 out hr _
    unfold HERR.runOps at hr
    simp only [Except.ok.injEq, Prod.mk.injEq] at hr
    rw [← hr.2]
    simp
  | cons g rest ih =>
    intro lay lay2 out hr hgs
    unfold HERR.runOps at hr
    cases h1 : h.stepOp lay g with
    | error e => simp only [h1] at hr; exact Except.noConfusion hr
    | ok r1 =>
      obtain ⟨l1, out1⟩ := r1
      simp only [h1] at hr
      cases h2 : h.runOps l1 rest with
      | error e => simp only [h2] at hr; exact Except.noConfusion hr
      | ok r2 =>
        obtain ⟨l2, out2⟩ := r2
        simp only [h2, Except.ok.injEq, Prod.mk.injEq] at hr
        obtain ⟨hl, ho⟩ := hr
        obtain ⟨sw, gq, hout1, hnames⟩ := stepOp_shape h1
        rw [← ho, hout1, List.filter_append, List.filter_append]
        have hsw : sw.filter (fun o => o.name != "swap") = [] := by
          apply List.filter_eq_nil_iff.mpr
          intro o hmem
          simp [hnames o hmem]
        have hone : ([(⟨g.name, gq⟩ : GateOp)] : List GateOp).filter
            (fun o => o.name != "swap") = [⟨g.name, gq⟩] := by
          have hne := hgs g (List.mem_cons_self g rest)
          have hb : (g.name != "swap") = true := by
            simp [bne_iff_ne, hne]
          simp [List.filter, hb]
        rw [hsw, hone]
        simp only [List.nil_append, List.map_append, List.map_cons, List.map_nil,
          List.map_cons]
        rw [ih l1 l2 out2 h2 (fun q hq => hgs q (List.mem_cons_of_mem g hq))]
        simp

set_option maxRecDepth 2500

/-- C4: on the path device 0-1-2-3 with source pair (0,1) and candidate link
(2,3) the qubit-pair assignment yields no path for source qubit 0 (physical 0
is isolated once partner 1 is excluded), and `calc_path_accuracy` does NOT
return 0 for the candidate: it raises TypeError from `len(None)`.  The second
conjunct exhibits the missing assignment path. -/
theorem C4_missing_path_raises_instead_of_zero :
    HERR.calc_path_accuracy L4 (0, 1) (2, 3) (Layout.trivial 4) =
      .error .typeError ∧
    HERR.find_path_excluding L4 0 2 1 = none := by with_unfolding_all decide

/-- C5 counterexample: on the complete three-qubit topology `K3` every
distinct pair is a Link and the single operation already sits on the adjacent
pair (0,1); the router nevertheless inserts a swap (moving the gate onto the
better link (0,2)), refuting both the pass-through claim for adjacent
operations and the complete-graph idempotence claim. -/
theorem C5_counterexample :
    (∀ p, p < 3 → ∀ q, q < 3 → p ≠ q → isLink K3.couplingMap p q = true) ∧
    HERR.run K3 dagK3 =
      .ok ⟨3, [⟨"swap", [1, 2]⟩, ⟨"cx", [0, 2]⟩]⟩ := by with_unfolding_all decide

/-- C6 counterexample: `L3` stores the starting layout [0,2,1] (logical 1 on
physical 2); under that layout the gate endpoints (0,2) are not adjacent, so a
routing run that started from it could not emit the bare CX on (0,1) with no
swap — yet that is exactly what `run` produces, because the stored layout is
never consulted and routing starts from the identity layout. -/
theorem C6_counterexample :
    L3.initial_layout = some [0, 2, 1] ∧
    HERR.run L3 dagL3 = .ok ⟨3, [⟨"cx", [0, 1]⟩]⟩ ∧
    Layout.v2pGet ⟨[0, 2, 1], [0, 2, 1]⟩ 1 = .ok 2 ∧
    isLink L3.couplingMap 0 2 = false ∧
    isLink L3.couplingMap 0 1 = true := by with_unfolding_all decide

/-- C3 counterexample: on the path device 0-1-2-3 the endpoints 0 and 2 are
not directly linked (distance 2); the shortest path is [0,1,2] with links
(0,1) and (1,2), but `calc_shortest_path_accuracy` returns only
`weight(0,1)^3 = 1/8`, not the claimed product over every consecutive link
`(1/2)^3 * (1/3)^3 = 1/216`. -/
theorem C3_counterexample :
    cmDistance L4.couplingMap 0 2 = .ok 2 ∧
    HERR.calc_shortest_path_accuracy L4 0 2 = .ok ((1 / 2 : ℚ) ^ 3) ∧
    specShortestPathAccuracy L4 0 2 = .ok ((1 / 2 : ℚ) ^ 3 * (1 / 3) ^ 3) ∧
    ((1 / 2 : ℚ) ^ 3) ≠ (1 / 2 : ℚ) ^ 3 * (1 / 3) ^ 3 := by with_unfolding_all decide

/-- C3 amended: the baseline accuracy of a non-adjacent pair equals the
product of `weight(link)^3` over every consecutive link of the shortest path
EXCEPT the final one — the loop runs over `range(len(path) - 2)`. -/
theorem C3_accuracy_omits_last_link (h : HERR) (q1 q2 : Nat) (path : List Nat)
    (qs : List ℚ)
    (hp : cmShortPath h.couplingMap q1 q2 = .ok path)
    (hw : wlistOf h.qubitAccuracy ((pairsOf path).dropLast) = .ok qs) :
    h.calc_shortest_path_accuracy q1 q2 =
      .ok ((qs.map (fun w => w ^ 3)).prod) := by
  unfold HERR.calc_shortest_path_accuracy
  simp only [hp, accProd_eq _ 1 qs hw, one_mul]

/-- C3 witness: on the path device the shortest path from 0 to 2 is [0,1,2],
its non-final links are [(0,1)] with weights [1/2], and the computed baseline
is the product of their cubes. -/
theorem C3_witness :
    HERR.calc_shortest_path_accuracy L4 0 2 =
      .ok ((([(1 : ℚ) / 2]).map (fun w => w ^ 3)).prod) :=
  C3_accuracy_omits_last_link L4 0 2 [0, 1, 2] [1 / 2]
    (by with_unfolding_all decide) (by with_unfolding_all decide)

/-- C5 amended: what does hold of the code is the pass-through half
conditioned on the search: when `find_better_link` reports no better link and
the endpoints are already adjacent (distance 1), the operation is re-emitted
through the unchanged layout and no swap is inserted.  Adjacency alone — even
on a complete graph — does not prevent swaps (see the C5 counterexample). -/
theorem C5_no_better_and_adjacent_passthrough (h : HERR) (lay : Layout)
    (gname : String) (a b p0 p1 : Nat)
    (hp0 : lay.v2pGet a = .ok p0) (hp1 : lay.v2pGet b = .ok p1)
    (hnb : h.find_better_link p0 p1 lay h.searchDepth = .ok none)
    (hd : cmDistance h.couplingMap p0 p1 = .ok 1) :
    h.stepOp lay ⟨gname, [a, b]⟩ = .ok (lay, [⟨gname, [p0, p1]⟩]) := by
  have hmq : mapQargs lay [a, b] = .ok [p0, p1] := by
    simp only [mapQargs, hp0, hp1]
  unfold HERR.stepOp
  simp only [hp0, hp1, hnb, hd]
  rw [if_neg (fun hh => hh rfl)]
  simp only [hmq]

/-- C5 witness: on the path device 0-1-2 the gate on physical (0,1) is
adjacent, no better link exists, and the operation passes through with no
swap and no layout change. -/
theorem C5_witness :
    HERR.stepOp L3 (Layout.trivial 3) ⟨"cx", [0, 1]⟩ =
      .ok (Layout.trivial 3, [⟨"cx", [0, 1]⟩]) :=
  C5_no_better_and_adjacent_passthrough L3 (Layout.trivial 3) "cx" 0 1 0 1
    (by decide) (by decide) (by with_unfolding_all decide) (by decide)

theorem fpe_setIL (h : HERR) (il : Option (List Nat)) (s d x : Nat) :
    (setInitialLayout h il).find_path_excluding s d x =
      h.find_path_excluding s d x := rfl

theorem fsp_setIL (h : HERR) (il : Option (List Nat)) (s d : Nat × Nat) :
    (setInitialLayout h il).find_shortest_path s d = h.find_shortest_path s d := rfl

theorem cspa_setIL (h : HERR) (il : Option (List Nat)) (q1 q2 : Nat) :
    (setInitialLayout h il).calc_shortest_path_accuracy q1 q2 =
      h.calc_shortest_path_accuracy q1 q2 := rfl

theorem cpa_setIL (h : HERR) (il : Option (List Nat)) (s d : Nat × Nat)
    (lay : Layout) :
    (setInitialLayout h il).calc_path_accuracy s d lay =
      h.calc_path_accuracy s d lay := rfl

theorem fblLoop_setIL (h : HERR) (il : Option (List Nat)) (q1 q2 : Nat)
    (lay : Layout) (depth : Nat) :
    ∀ (es : List (Nat × Nat)) (st : (Nat × Nat) × ℚ × Bool),
      fblLoop (setInitialLayout h il) q1 q2 lay depth es st =
        fblLoop h q1 q2 lay depth es st := by
  intro es
  induction es with
  | nil => intro st; rfl
  | cons e rest ih =>
    intro st
    unfold fblLoop
    simp only [ih, cpa_setIL]
    rfl

theorem fbl_setIL (h : HERR) (il : Option (List Nat)) (q1 q2 : Nat)
    (lay : Layout) (depth : Nat) :
    (setInitialLayout h il).find_better_link q1 q2 lay depth =
      h.find_better_link q1 q2 lay depth := by
  unfold HERR.find_better_link
  simp only [fblLoop_setIL, cspa_setIL]
  rfl

theorem stepOp_setIL (h : HERR) (il : Option (List Nat)) (lay : Layout)
    (g : GateOp) :
    (setInitialLayout h il).stepOp lay g = h.stepOp lay g := by
  unfold HERR.stepOp
  simp only [fbl_setIL, fsp_setIL]
  rfl

theorem runOps_setIL (h : HERR) (il : Option (List Nat)) :
    ∀ (gs : List GateOp) (lay : Layout),
      (setInitialLayout h il).runOps lay gs = h.runOps lay gs := by
  intro gs
  induction gs with
  | nil => intro lay; rfl
  | cons g rest ih =>
    intro lay
    unfold HERR.runOps
    simp only [ih, stepOp_setIL]

/-- C6 amended: the starting Layout stored at construction is ignored — `run`
reads only the coupling map, the accuracy graph and the search depth, and
always starts from the trivial (identity) layout, whatever initial layout the
pass object carries. -/
theorem C6_initial_layout_ignored (h : HERR) (il : Option (List Nat))
    (dag : DAGCircuit) : (setInitialLayout h il).run dag = h.run dag := by
  unfold HERR.run
  simp only [runOps_setIL]
  rfl

/-- C7: when a better link is found, `run` appends exactly one SwapInstruction
per consecutive wire pair of each non-empty assignment path, in path order
(chain for source 0 first), and the resulting layout equals the one obtained
by applying each swap to the layout immediately; the emitted physical swap
sequence coincides with the spec-modelled immediate-application routine
`specEmitChains`, so each swap is addressed exactly as under the
updated-layout discipline, and the original operation is re-emitted through
the final layout. -/
theorem C7_swap_chains_match_immediate_application (h : HERR) (lay : Layout)
    (n : Nat) (gname : String) (a b p0 p1 : Nat) (e : Nat × Nat)
    (sp : Option (List Nat) × Option (List Nat))
    (hwf : lay.wfb n = true)
    (hp0 : lay.v2pGet a = .ok p0) (hp1 : lay.v2pGet b = .ok p1)
    (hfind : h.find_better_link p0 p1 lay h.searchDepth = .ok (some e))
    (hsp : h.find_shortest_path (p0, p1) (e.1, e.2) = .ok sp)
    (hbound : ∀ pr ∈ chainPairs sp, pr.1 < n ∧ pr.2 < n) :
    ∃ lay1 pa pb,
      specEmitChains lay (chainPairs sp) =
        .ok ((chainPairs sp).map mkSwapOp, lay1) ∧
      applySwaps lay (chainPairs sp) = .ok lay1 ∧
      lay1.wfb n = true ∧
      lay1.v2pGet a = .ok pa ∧ lay1.v2pGet b = .ok pb ∧
      h.stepOp lay ⟨gname, [a, b]⟩ =
        .ok (lay1, (chainPairs sp).map mkSwapOp ++ [⟨gname, [pa, pb]⟩]) := by
  have hw := Layout.wfb_iff.mp hwf
  obtain ⟨lay1, hap, hw1, hspec⟩ := applySwaps_spec (chainPairs sp) lay hw hbound
  have hemit := emitSwaps_eq hw (chainPairs sp) hbound
  have ha : a < n := by
    unfold Layout.v2pGet at hp0
    cases hg : lay.v2p.get? a with
    | none => rw [hg] at hp0; exact Except.noConfusion hp0
    | some x => exact hw.1 ▸ lget_some_lt hg
  have hbn : b < n := by
    unfold Layout.v2pGet at hp1
    cases hg : lay.v2p.get? b with
    | none => rw [hg] at hp1; exact Except.noConfusion hp1
    | some x => exact hw.1 ▸ lget_some_lt hg
  obtain ⟨pa, hpa⟩ := lget_lt_some (show a < lay1.v2p.length by rw [hw1.1]; exact ha)
  obtain ⟨pb, hpb⟩ := lget_lt_some (show b < lay1.v2p.length by rw [hw1.1]; exact hbn)
  have hpaE : lay1.v2pGet a = .ok pa := by unfold Layout.v2pGet; rw [hpa]
  have hpbE : lay1.v2pGet b = .ok pb := by unfold Layout.v2pGet; rw [hpb]
  have hmq : mapQargs lay1 [a, b] = .ok [pa, pb] := by
    simp only [mapQargs, hpaE, hpbE]
  refine ⟨lay1, pa, pb, hspec, hap, Layout.wfb_iff.mpr hw1, hpaE, hpbE, ?_⟩
  unfold HERR.stepOp
  simp only [hp0, hp1, hfind, hsp, hemit, hap, hmq]

/-- C7 witness: the concrete better-link step on `EX1` (gate on physical
(0,1), better link (3,4), assignment chains [0,4] and [1,2,4,3]). -/
theorem C7_witness :
    ∃ lay1 pa pb,
      specEmitChains (Layout.trivial 5)
          (chainPairs (some [0, 4], some [1, 2, 4, 3])) =
        .ok ((chainPairs (some [0, 4], some [1, 2, 4, 3])).map mkSwapOp, lay1) ∧
      applySwaps (Layout.trivial 5)
          (chainPairs (some [0, 4], some [1, 2, 4, 3])) = .ok lay1 ∧
      lay1.wfb 5 = true ∧
      lay1.v2pGet 0 = .ok pa ∧ lay1.v2pGet 1 = .ok pb ∧
      HERR.stepOp EX1 (Layout.trivial 5) ⟨"cx", [0, 1]⟩ =
        .ok (lay1, (chainPairs (some [0, 4], some [1, 2, 4, 3])).map mkSwapOp ++
          [⟨"cx", [pa, pb]⟩]) :=
  C7_swap_chains_match_immediate_application EX1 (Layout.trivial 5) 5 "cx"
    0 1 0 1 (3, 4) (some [0, 4], some [1, 2, 4, 3])
    (by decide) (by decide) (by decide)
    (by with_unfolding_all decide) (by with_unfolding_all decide) (by decide)

/-- C8: the Layout bijection invariant: for every layout reachable during
routing (the trivial starting layout and everything obtained from it by the
`Layout.swap` calls that are the only layout mutations in `run`), looking up
the logical owner of any physical qubit p below the register size and mapping
it back through the layout returns p. -/
theorem C8_layout_always_bijective {n : Nat} {l : Layout}
    (hr : LayoutReach n l) {p : Nat} (hp : p < n) :
    ∃ v, l.p2vGet p = .ok v ∧ l.v2pGet v = .ok p := by
  obtain ⟨_, _, hB⟩ := layoutReach_wfP hr
  obtain ⟨v, _, hg, hb⟩ := hB p hp
  refine ⟨v, ?_, ?_⟩
  · unfold Layout.p2vGet
    rw [hg]
  · unfold Layout.v2pGet
    rw [hb]

/-- C8 witness: the layout after one swap on a two-qubit register still maps
physical 0 back to itself through its logical owner. -/
theorem C8_witness :
    ∃ v, Layout.p2vGet ⟨[1, 0], [1, 0]⟩ 0 = .ok v ∧
      Layout.v2pGet ⟨[1, 0], [1, 0]⟩ v = .ok 0 :=
  C8_layout_always_bijective
    (@LayoutReach.step 2 (Layout.trivial 2) ⟨[1, 0], [1, 0]⟩ 0 1
      (LayoutReach.start 2) (by decide)) (by decide)

/-- C9: order preservation: for every successful run on a program whose
operations are not themselves named "swap", deleting the inserted swaps from
the routed output leaves the original operations, in exactly the input
order. -/
theorem C9_original_order_preserved (h : HERR) (dag outDag : DAGCircuit)
    (hrun : h.run dag = .ok outDag) (hs : ∀ g ∈ dag.ops, g.name ≠ "swap") :
    (outDag.ops.filter (fun o => o.name != "swap")).map GateOp.name =
      dag.ops.map GateOp.name := by
  unfold HERR.run at hrun
  by_cases hc : dag.nq > cmSize h.couplingMap
  · rw [if_pos hc] at hrun
    exact Except.noConfusion hrun
  · rw [if_neg hc] at hrun
    cases hro : h.runOps (Layout.trivial dag.nq) dag.ops with
    | error e => simp only [hro] at hrun; exact Except.noConfusion hrun
    | ok res =>
      obtain ⟨l2, ops2⟩ := res
      simp only [hro, Except.ok.injEq] at hrun
      rw [← hrun]
      exact runOps_names dag.ops _ _ _ hro hs

/-- C9 witness: the routed `K3` program with its swap removed is exactly the
original single CX. -/
theorem C9_witness :
    (((⟨3, [⟨"swap", [1, 2]⟩, ⟨"cx", [0, 2]⟩]⟩ : DAGCircuit)).ops.filter
        (fun o => o.name != "swap")).map GateOp.name =
      dagK3.ops.map GateOp.name :=
  C9_original_order_preserved K3 dagK3 ⟨3, [⟨"swap", [1, 2]⟩, ⟨"cx", [0, 2]⟩]⟩
    (by with_unfolding_all decide) (by decide)

/-- C10: `run` never mutates its input program: in the state-threaded model
`runMut`, where the input DAG is passed through every method call the source
performs on it, the input object that comes back is the one that went in, and
the routed output agrees with `run`. -/
theorem C10_input_dag_unchanged (h : HERR) (dag : DAGCircuit)
    (res : DAGCircuit × DAGCircuit) (hr : h.runMut dag = .ok res) :
    res.1 = dag ∧ h.run dag = .ok res.2 := by
  unfold HERR.runMut DAGCircuit.qubitsRead DAGCircuit.serialLayersRead at hr
  unfold HERR.run
  by_cases hc : dag.nq > cmSize h.couplingMap
  · rw [if_pos hc] at hr
    exact Except.noConfusion hr
  · rw [if_neg hc] at hr
    rw [if_neg hc]
    cases hro : h.runOps (Layout.trivial dag.nq) dag.ops with
    | error e => simp only [hro] at hr; exact Except.noConfusion hr
    | ok r =>
      simp only [hro, Except.ok.injEq] at hr
      rw [← hr]
      exact ⟨rfl, rfl⟩

/-- C10 witness: a swap-inserting run on `EX1` leaves the threaded input DAG
exactly as it was and produces the routed output. -/
theorem C10_witness :
    ((dagEX1, (⟨5, [⟨"swap", [0, 4]⟩, ⟨"swap", [1, 2]⟩, ⟨"swap", [2, 4]⟩,
        ⟨"swap", [4, 3]⟩, ⟨"cx", [2, 3]⟩]⟩ : DAGCircuit)) :
          DAGCircuit × DAGCircuit).1 = dagEX1 ∧
      HERR.run EX1 dagEX1 =
        .ok ((dagEX1, (⟨5, [⟨"swap", [0, 4]⟩, ⟨"swap", [1, 2]⟩,
          ⟨"swap", [2, 4]⟩, ⟨"swap", [4, 3]⟩, ⟨"cx", [2, 3]⟩]⟩ : DAGCircuit)) :
            DAGCircuit × DAGCircuit).2 :=
  C10_input_dag_unchanged EX1 dagEX1 _ (by
    have hro : HERR.runOps EX1 (Layout.trivial 5) [⟨"cx", [0, 1]⟩] =
        .ok (⟨[2, 3, 1, 4, 0], [4, 2, 0, 1, 3]⟩,
          [⟨"swap", [0, 4]⟩, ⟨"swap", [1, 2]⟩, ⟨"swap", [2, 4]⟩,
           ⟨"swap", [4, 3]⟩, ⟨"cx", [2, 3]⟩]) := by
      with_unfolding_all decide
    unfold HERR.runMut DAGCircuit.qubitsRead DAGCircuit.serialLayersRead
    simp only [dagEX1]
    rw [if_neg (by decide)]
    simp only [hro])
